import Mathlib

/-
Shallow embedding of the fastxml pull XML tokenizer (Go package `fastxml`,
files `parser.go`, `scanner.go`, `tags.go`, plus the attribute lookup in the
unnamed source part defining `StartToken.GetAttribute`).

Modelling conventions:
  - Go byte slices and strings are `List Nat` (each element a byte value).
  - Go `int` results that can be `-1` sentinels are `Int`.
  - Fallible Go functions return `Except Err _`; a Go runtime panic
    (index / slice out of range) is modelled by the distinguished error
    `Err.goPanic`, raised exactly where the source would panic.
  - Unbounded Go `for` loops are modelled with an explicit fuel argument that
    is provably large enough for every terminating execution; exhaustion
    (only possible where the Go loop would not terminate, or is unreachable)
    yields either the Go loop's own exit value or the artificial `Err.fuelOut`.
  - The parser state is `buf`, `lastTagName` and `currentPointer`; the Go
    struct's `innerData` scratch area only recycles storage for returned
    tokens and carries no information that later calls read, so tokens are
    modelled as plain values.
-/

namespace Fastxml

/-- Error kinds of the Go source (each `errors.New`/sentinel error), plus
`goPanic` for Go runtime panics and `fuelOut` for the fuel artifact. -/
inductive Err where
  | eof
  | unexpectedEOF
  | notAValidTag
  | invalidClosingElement
  | commentNotFormatted
  | unknownDeclaration
  | noCDATASuffix
  | noCommentSuffix
  | noEqualSign
  | runeNotNameStart
  | runeNotNamePart
  | noQuoteStart
  | notProperlyQuoted
  | noSuchAttribute
  | goPanic
  | fuelOut
  deriving DecidableEq, Repr

/-- Tokens returned by the parser (`tags.go`): the `xml.Token` variants the
decoder produces. `startElement` keeps the optional attribute region
(`attrBuf`, `nil` in Go modelled as `none`). -/
inductive Token where
  | charData (s : List Nat)
  | comment (s : List Nat)
  | directive (s : List Nat)
  | startElement (name : List Nat) (attrBuf : Option (List Nat))
  | endElement (name : List Nat)
  | procInst (target : List Nat) (inst : List Nat)
  deriving DecidableEq, Repr

/-- ASCII bytes of a Lean string; used only for ASCII inputs, where Go's
`[]byte(s)` is this byte sequence. -/
def strBytes (s : String) : List Nat := s.toList.map Char.toNat

/-- Go `bytes.IndexByte`: index of the first occurrence of `b`, or `-1`. -/
def indexByte : List Nat → Nat → Int
  | [], _ => -1
  | x :: xs, b =>
    if x == b then 0
    else
      let r := indexByte xs b
      if r == -1 then -1 else r + 1

/-- Go `bytes.Index`: index of the first occurrence of `pat`, or `-1`. -/
def bytesIndex : List Nat → List Nat → Int
  | buf, pat =>
    if pat.isPrefixOf buf then 0
    else
      match buf with
      | [] => -1
      | _ :: xs =>
        let r := bytesIndex xs pat
        if r == -1 then -1 else r + 1

/-- `isNameStartChar` from parser.go: ASCII letter, `:` or `_`. -/
def isNameStartChar (rn : Nat) : Bool :=
  (97 ≤ rn && rn ≤ 122) || (65 ≤ rn && rn ≤ 90) || rn == 58 || rn == 95

/-- `isNameChar` from parser.go: name-start, `-`, `.` or ASCII digit. -/
def isNameChar (rn : Nat) : Bool :=
  isNameStartChar rn || rn == 45 || rn == 46 || (48 ≤ rn && rn ≤ 57)

/-- `IsHTMLSpaceChar` from parser.go: space, tab, CR, LF. -/
def IsHTMLSpaceChar (rn : Nat) : Bool :=
  rn == 32 || rn == 9 || rn == 13 || rn == 10

/-- Second-byte acceptance lower bound of Go `unicode/utf8` for a given first
byte (the `acceptRanges` table). -/
def utf8AcceptLo (b0 : Nat) : Nat :=
  if b0 == 0xE0 then 0xA0 else if b0 == 0xF0 then 0x90 else 0x80

/-- Second-byte acceptance upper bound of Go `unicode/utf8` for a given first
byte (the `acceptRanges` table). -/
def utf8AcceptHi (b0 : Nat) : Nat :=
  if b0 == 0xED then 0x9F else if b0 == 0xF4 then 0x8F else 0xBF

/-- Go `utf8.DecodeRune`: first rune of `p` and its byte width; `(RuneError, 0)`
on empty input, `(RuneError, 1)` on an invalid or truncated encoding. -/
def utf8DecodeRune (p : List Nat) : Nat × Nat :=
  match p with
  | [] => (0xFFFD, 0)
  | b0 :: rest =>
    if b0 < 0x80 then (b0, 1)
    else if b0 < 0xC2 || 0xF4 < b0 then (0xFFFD, 1)
    else
      match rest with
      | [] => (0xFFFD, 1)
      | b1 :: rest2 =>
        if b1 < utf8AcceptLo b0 || utf8AcceptHi b0 < b1 then (0xFFFD, 1)
        else if b0 ≤ 0xDF then ((b0 % 0x20) * 0x40 + b1 % 0x40, 2)
        else
          match rest2 with
          | [] => (0xFFFD, 1)
          | b2 :: rest3 =>
            if b2 < 0x80 || 0xBF < b2 then (0xFFFD, 1)
            else if b0 ≤ 0xEF then
              ((b0 % 0x10) * 0x1000 + (b1 % 0x40) * 0x40 + b2 % 0x40, 3)
            else
              match rest3 with
              | [] => (0xFFFD, 1)
              | b3 :: _ =>
                if b3 < 0x80 || 0xBF < b3 then (0xFFFD, 1)
                else ((b0 % 0x08) * 0x40000 + (b1 % 0x40) * 0x1000 +
                      (b2 % 0x40) * 0x40 + b3 % 0x40, 4)

/-- Loop body of `NextNonSpaceIndex` (parser.go): walk runes while they are
XML whitespace; result is the index of the first non-space rune, `-1` if the
whole slice is whitespace. Fuel `buf.length + 1` is always enough. -/
def nnsLoop (buf : List Nat) : Nat → Nat → Int
  | _, 0 => -1
  | idx, fuel + 1 =>
    if idx < buf.length then
      let r := utf8DecodeRune (buf.drop idx)
      if !IsHTMLSpaceChar r.1 then (idx : Int)
      else nnsLoop buf (idx + r.2) fuel
    else -1

/-- `NextNonSpaceIndex` from parser.go. -/
def NextNonSpaceIndex (buf : List Nat) : Int :=
  nnsLoop buf 0 (buf.length + 1)

/-- Loop body of `NextSpaceIndex` (parser.go). -/
def nsiLoop (buf : List Nat) : Nat → Nat → Int
  | _, 0 => -1
  | idx, fuel + 1 =>
    if idx < buf.length then
      let r := utf8DecodeRune (buf.drop idx)
      if IsHTMLSpaceChar r.1 then (idx : Int)
      else nsiLoop buf (idx + r.2) fuel
    else -1

/-- `NextSpaceIndex` from parser.go. -/
def NextSpaceIndex (buf : List Nat) : Int :=
  nsiLoop buf 0 (buf.length + 1)

/-- The `for i := 1; i < len(buf); i++` loop of `scanTillWordEnd`
(scanner.go), iterating over `buf[1:]` with `i` the running index: the first
`i` whose byte is not a name byte, and `1` if the loop runs off the end. -/
def scanTillWordEndLoop : List Nat → Nat → Nat
  | [], _ => 1
  | b :: rest, i => if !isNameChar b then i else scanTillWordEndLoop rest (i + 1)

/-- `scanTillWordEnd` from scanner.go. -/
def scanTillWordEnd (buf : List Nat) : Nat :=
  match buf with
  | [] => 0
  | b0 :: rest =>
    if !isNameStartChar b0 then 0
    else scanTillWordEndLoop rest 1

/-- `nextTokenStartIndex` from scanner.go: `-1` on an empty buffer, else
`bytes.IndexByte(buf[1:], searchByte) + 1`. -/
def nextTokenStartIndex (buf : List Nat) (searchByte : Nat) : Int :=
  if buf.length < 1 then -1
  else indexByte buf.tail searchByte + 1

/-- `<!DOCTYPE` prefix bytes (parser.go `docTypePrefix`). -/
def docTypePref : List Nat := strBytes "<!DOCTYPE"

/-- `<!ELEMENT` prefix bytes (parser.go `elementPrefix`). -/
def elementPref : List Nat := strBytes "<!ELEMENT"

/-- `<!ATTLIST` prefix bytes (parser.go `attListPrefix`). -/
def attListPref : List Nat := strBytes "<!ATTLIST"

/-- `<![CDATA[` prefix bytes (scanner.go `cdataPrefix`). -/
def cdataPref : List Nat := strBytes "<![CDATA["

/-- `]]>` suffix bytes (scanner.go `cdataSuffix`). -/
def cdataSuf : List Nat := strBytes "]]>"

/-- `<!--` prefix bytes (scanner.go `commentPrefix`). -/
def commentPref : List Nat := strBytes "<!--"

/-- `-->` suffix bytes (scanner.go `commentSuffix`). -/
def commentSuf : List Nat := strBytes "-->"

/-- `isSpecialTag` from scanner.go: does the buffer start with `<!`. -/
def isSpecialTag (buf : List Nat) : Bool :=
  List.isPrefixOf [60, 33] buf

/-- `scanFullTag` from scanner.go. -/
def scanFullTag (buf : List Nat) : Except Err Int :=
  .ok (nextTokenStartIndex buf 62 + 1)

/-- `scanCDATADeclaration` from scanner.go. -/
def scanCDATADeclaration (buf : List Nat) : Except Err Int :=
  let endIdx := bytesIndex buf cdataSuf
  if endIdx == -1 then .error .noCDATASuffix
  else .ok (endIdx + cdataSuf.length)

/-- `scanDoctypeDeclaration` from scanner.go. -/
def scanDoctypeDeclaration (buf : List Nat) : Except Err Int :=
  let closeBracket := nextTokenStartIndex buf 93
  if closeBracket == -1 then .ok (nextTokenStartIndex buf 62)
  else .ok (closeBracket + nextTokenStartIndex (buf.drop closeBracket.toNat) 62)

/-- `scanComment` from scanner.go. -/
def scanComment (buf : List Nat) : Except Err Int :=
  let idx := bytesIndex buf commentSuf
  if idx == -1 then .error .noCommentSuffix
  else .ok (idx + commentSuf.length)

/-- `scanFullCharData` from scanner.go. -/
def scanFullCharData (buf : List Nat) : Except Err Int :=
  if buf.length == 0 then .ok 0
  else
    let openIdx := indexByte buf 60
    if openIdx == -1 then .ok (buf.length : Int)
    else .ok openIdx

/-- `scanSpecial` from scanner.go: dispatch on the `<!` family. In the Go
source the unknown-declaration error message slices `buf[:NextNonSpaceIndex(buf)]`,
which would panic on a negative index. -/
def scanSpecial (buf : List Nat) : Except Err Int :=
  if cdataPref.isPrefixOf buf then scanCDATADeclaration buf
  else if docTypePref.isPrefixOf buf then scanDoctypeDeclaration buf
  else if commentPref.isPrefixOf buf then scanComment buf
  else if NextNonSpaceIndex buf < 0 then .error .goPanic
  else .error .unknownDeclaration

/-- `FetchNextToken` from scanner.go: frame the next raw token. `none` models
Go's `nil, nil` return (zero-length frame). The slice `buf[:tagEnd]` panics in
Go when `tagEnd > len(buf)`, modelled with the explicit bound check. -/
def FetchNextToken (buf : List Nat) : Except Err (Option (List Nat)) :=
  if buf.length == 0 then .ok none
  else
    let scanned :=
      if isSpecialTag buf then scanSpecial buf
      else if buf.headD 0 == 60 then scanFullTag buf
      else scanFullCharData buf
    match scanned with
    | .error e => .error e
    | .ok tagEnd =>
      if tagEnd ≤ 0 then .ok none
      else if tagEnd.toNat ≤ buf.length then .ok (some (buf.take tagEnd.toNat))
      else .error .goPanic

/-- Parser state (parser.go `Parser`): the full input buffer, the pending
self-close tag name (`lastTagName`, empty = no pending end tag) and the
cursor `currentPointer`. The `innerData` scratch area carries no state that
later calls read and is not modelled. -/
structure Parser where
  buf : List Nat
  lastTagName : List Nat
  currentPointer : Nat
  deriving DecidableEq, Repr

/-- `NewParser` from parser.go (the `mustCopy` copy is identity on values). -/
def NewParser (buf : List Nat) : Parser :=
  { buf := buf, lastTagName := [], currentPointer := 0 }

/-- Loop body of `cleanEOLChars` (parser.go): `bytesBuf` accumulation. The Go
guard `len(buf) > crIdx` is satisfied by every found index, so the read of
`buf[crIdx+1]` panics when the `\r` is the last byte. Fuel `buf.length + 1`
is always enough since every iteration drops at least one byte. -/
def cleanEOLLoop : Nat → List Nat → List Nat → Except Err (List Nat)
  | 0, _, _ => .error .fuelOut
  | fuel + 1, buf, acc =>
    let crIdx := indexByte buf 13
    if crIdx == -1 then .ok (acc ++ buf)
    else
      let i := crIdx.toNat
      let acc2 := acc ++ buf.take i
      if i < buf.length then
        match (buf.drop (i + 1)).head? with
        | none => .error .goPanic
        | some b =>
          let acc3 := if b ≠ 10 then acc2 ++ [10] else acc2
          cleanEOLLoop fuel (buf.drop (i + 1)) acc3
      else cleanEOLLoop fuel (buf.drop (i + 1)) acc2

/-- `cleanEOLChars` from parser.go: normalize `\r` and `\r\n` to `\n`. -/
def cleanEOLChars (buf : List Nat) : Except Err (List Nat) :=
  if indexByte buf 13 == -1 then .ok buf
  else cleanEOLLoop (buf.length + 1) buf []

/-- `Parser.decodeCharData` from parser.go: raw slice, normalized through
`cleanEOLChars` only when a `\r` byte is present. -/
def decodeCharData (buf : List Nat) : Except Err Token :=
  if buf.contains 13 then
    match cleanEOLChars buf with
    | .error e => .error e
    | .ok s => .ok (.charData s)
  else .ok (.charData buf)

/-- `Parser.decodeClosingTag` from parser.go. The statement `_ = buf[nameEndIdx]`
(bounds-check elimination) is a real read and panics when out of range. -/
def decodeClosingTag (buf : List Nat) : Except Err Token :=
  if buf.length < 4 || buf.get? 2 == some 62 then .error .invalidClosingElement
  else
    let buf2 := buf.drop 2
    let nameEndIdx := scanTillWordEnd buf2
    if nameEndIdx == 0 then .error .invalidClosingElement
    else
      match buf2.get? nameEndIdx with
      | none => .error .goPanic
      | some _ => .ok (.endElement (buf2.take nameEndIdx))

/-- `Parser.decodeComment` from parser.go. The reads `buf[commentEndIdx-1]`
and the slice `buf[4:commentEndIdx]` panic when their indices are out of
range. -/
def decodeComment (buf : List Nat) : Except Err Token :=
  let commentEndIdx := bytesIndex buf commentSuf
  if commentEndIdx == -1 then .error .commentNotFormatted
  else if commentEndIdx == 0 then .error .goPanic
  else
    let i := commentEndIdx.toNat
    match buf.get? (i - 1) with
    | none => .error .goPanic
    | some bm =>
      if bm == 45 && buf.length < 7 then .error .commentNotFormatted
      else if i < 4 then .error .goPanic
      else .ok (.comment ((buf.drop 4).take (i - 4)))

/-- `Parser.decodeCdata` from parser.go: `buf[cdataPrefLen : len(buf)-cdataSufLen]`,
a panic when `len(buf) < 12`. -/
def decodeCdata (buf : List Nat) : Except Err Token :=
  if buf.length < 12 then .error .goPanic
  else .ok (.charData ((buf.drop 9).take (buf.length - 3 - 9)))

/-- `Parser.decodeProcessInstruction` from parser.go; slice-bound violations
are panics. -/
def decodeProcessInstruction (buf : List Nat) : Except Err Token :=
  let endInstIdx : Int := (buf.length : Int) - 2
  let endTargetIdx := NextSpaceIndex buf
  if endTargetIdx == -1 then
    if 2 ≤ endInstIdx then
      .ok (.procInst ((buf.drop 2).take (endInstIdx.toNat - 2)) [])
    else .error .goPanic
  else
    let beginInstIdx := NextNonSpaceIndex (buf.drop endTargetIdx.toNat)
    let a : Int := endTargetIdx + beginInstIdx
    if 2 ≤ endTargetIdx && 0 ≤ a && a ≤ endInstIdx && endInstIdx ≤ (buf.length : Int) then
      .ok (.procInst ((buf.drop 2).take (endTargetIdx.toNat - 2))
                     ((buf.drop a.toNat).take (endInstIdx - a).toNat))
    else .error .goPanic

/-- `Parser.decodeDeclaration` from parser.go: `<!DOCTYPE`, `<!ELEMENT` and
`<!ATTLIST` yield a directive `buf[2:len(buf)-1]`; anything else is the
unknown-declaration error (whose message slices `buf[:NextNonSpaceIndex(buf)]`,
a panic when that index is negative). -/
def decodeDeclaration (buf : List Nat) : Except Err Token :=
  if docTypePref.isPrefixOf buf || elementPref.isPrefixOf buf || attListPref.isPrefixOf buf then
    if buf.length < 3 then .error .goPanic
    else .ok (.directive ((buf.drop 2).take (buf.length - 1 - 2)))
  else if NextNonSpaceIndex buf < 0 then .error .goPanic
  else .error .unknownDeclaration

/-- The skip-spaces loop of `Parser.decodeSimpleTag` (parser.go): number of
leading XML-whitespace bytes. -/
def countSpaces : List Nat → Nat
  | [] => 0
  | b :: rest => if IsHTMLSpaceChar b then countSpaces rest + 1 else 0

/-- `Parser.decodeSimpleTag` from parser.go: start-tag decoding. Sets
`lastTagName` when the byte before the final `>` is `/` (self-closing); the
attribute region is the rest of the frame after the name and following
whitespace, when its first byte is neither `>` nor `/`. The reads
`buf[len(buf)-2]` and `buf[0]` (after skipping) panic when out of range. -/
def decodeSimpleTag (st : Parser) (buf : List Nat) : Except Err Token × Parser :=
  if buf.length < 2 then (.error .goPanic, st)
  else
    let tagNameIdx := scanTillWordEnd (buf.drop 1)
    let tagName := (buf.drop 1).take tagNameIdx
    let st2 :=
      if buf.get? (buf.length - 2) == some 47 then { st with lastTagName := tagName }
      else st
    let buf2 := buf.drop (tagNameIdx + 1)
    let buf3 := buf2.drop (countSpaces buf2)
    match buf3.head? with
    | none => (.error .goPanic, st2)
    | some b =>
      let attr : Option (List Nat) := if b ≠ 62 && b ≠ 47 then some buf3 else none
      (.ok (.startElement tagName attr), st2)

/-- Cases 4-7 of the `Parser.decodeToken` switch (parser.go): CDATA,
processing instruction, declaration, and the catch-all start tag. -/
def decodeTokenRest (st : Parser) (buf : List Nat) : Except Err Token × Parser :=
  if 11 ≤ buf.length && buf.get? 1 == some 33 && buf.get? 2 == some 91 then
    (decodeCdata buf, st)
  else if buf.get? 1 == some 63 then (decodeProcessInstruction buf, st)
  else if buf.get? 1 == some 33 then (decodeDeclaration buf, st)
  else decodeSimpleTag st buf

/-- `Parser.decodeToken` from parser.go: empty frame is `io.ErrUnexpectedEOF`;
a `<` with frame length below 3 is `ErrNotAValidTag`; then the switch on the
leading bytes. In the comment case Go evaluates `buf[3]`, a panic when the
frame is exactly `<!-`. -/
def decodeToken (st : Parser) (buf : List Nat) : Except Err Token × Parser :=
  if buf.length == 0 then (.error .unexpectedEOF, st)
  else if buf.length < 3 && buf.get? 0 == some 60 then (.error .notAValidTag, st)
  else if buf.get? 0 ≠ some 60 then (decodeCharData buf, st)
  else if buf.get? 1 == some 47 then (decodeClosingTag buf, st)
  else if buf.get? 1 == some 33 && buf.get? 2 == some 45 then
    if buf.length < 4 then (.error .goPanic, st)
    else if buf.get? 3 == some 45 then (decodeComment buf, st)
    else decodeTokenRest st buf
  else decodeTokenRest st buf

/-- `Parser.Next` from parser.go: emit the pending self-close end tag if set;
`io.EOF` at end of buffer; otherwise frame with `FetchNextToken`, advance the
cursor by the frame length (Go's `nil` frame has length 0) and decode. -/
def Parser.next (st : Parser) : Except Err Token × Parser :=
  if st.lastTagName ≠ [] then
    (.ok (.endElement st.lastTagName), { st with lastTagName := [] })
  else if st.buf.length ≤ st.currentPointer then (.error .eof, st)
  else
    match FetchNextToken (st.buf.drop st.currentPointer) with
    | .error e => (.error e, st)
    | .ok od =>
      let tb := od.getD []
      decodeToken { st with currentPointer := st.currentPointer + tb.length } tb

/-- `Parser.Peek` from parser.go: run `Next`, then restore `currentPointer`
and `lastTagName`. -/
def Parser.peek (st : Parser) : Except Err Token × Parser :=
  let r := st.next
  (r.1, { r.2 with currentPointer := st.currentPointer, lastTagName := st.lastTagName })

/-- `StartToken` from the attribute source part: tag name plus the raw
attribute region (the Go field `attrBuf`). -/
structure StartToken where
  Name : List Nat
  attrBuf : List Nat
  deriving DecidableEq, Repr

/-- `NextWordIndex` loop from parser.go with `currPtr` and the width of the
rune just consumed; returns `(start, end)` of the word. -/
def nwiLoop (buf : List Nat) : Nat → Nat → Nat → Nat → Except Err (Nat × Nat)
  | _, _, _, 0 => .error .fuelOut
  | start, currPtr, size, fuel + 1 =>
    let c := currPtr + size
    if buf.length ≤ c then .ok (start, c)
    else
      let r := utf8DecodeRune (buf.drop c)
      if IsHTMLSpaceChar r.1 || r.1 == 61 then .ok (start, c)
      else if !isNameChar r.1 then .error .runeNotNamePart
      else nwiLoop buf start c r.2 fuel

/-- `NextWordIndex` from parser.go: start and end offsets of the next word.
Go slices `buf[currPtr:]` with `currPtr = NextNonSpaceIndex(buf)`, a panic
when that is `-1`. -/
def NextWordIndex (buf : List Nat) : Except Err (Nat × Nat) :=
  let start := NextNonSpaceIndex buf
  if start < 0 then .error .goPanic
  else
    let s := start.toNat
    let r := utf8DecodeRune (buf.drop s)
    if !isNameStartChar r.1 then .error .runeNotNameStart
    else nwiLoop buf s s r.2 (buf.length + 1)

/-- `NextWord` from parser.go. -/
def NextWord (buf : List Nat) : Except Err (List Nat × Nat) :=
  match NextWordIndex buf with
  | .error e => .error e
  | .ok (s, e) => .ok ((buf.drop s).take (e - s), e)

/-- `NextQuotedWordIndex` from parser.go: index of the opening quote and of
the closing quote. Go reads `buf[start]` with `start = NextNonSpaceIndex(buf)`,
a panic when that is `-1`. -/
def NextQuotedWordIndex (buf : List Nat) : Except Err (Nat × Nat) :=
  let start := NextNonSpaceIndex buf
  if start < 0 then .error .goPanic
  else
    let s := start.toNat
    match buf.get? s with
    | none => .error .goPanic
    | some quote =>
      if quote ≠ 39 && quote ≠ 34 then .error .noQuoteStart
      else
        let e := indexByte (buf.drop (s + 1)) quote
        if e == -1 then .error .notProperlyQuoted
        else .ok (s, s + e.toNat + 1)

/-- `NextQuotedWord` from parser.go: the word between the quotes and the
closing-quote index. -/
def NextQuotedWord (buf : List Nat) : Except Err (List Nat × Nat) :=
  match NextQuotedWordIndex buf with
  | .error e => .error e
  | .ok (s, e) => .ok ((buf.drop (s + 1)).take (e - (s + 1)), e)

/-- `decodeTagAttribute` from parser.go: one attribute `name = value` pair and
the offset to skip, `-1` standing for end of attributes. -/
def decodeTagAttribute (buf : List Nat) : Except Err (List Nat × List Nat × Int) :=
  if buf.length == 0 || buf.headD 0 == 62 then .ok ([], [], -1)
  else if indexByte buf 61 == -1 then .error .noEqualSign
  else
    let nonSpaceIdx := NextNonSpaceIndex buf
    if nonSpaceIdx < 0 then .error .goPanic
    else
      match buf.get? nonSpaceIdx.toNat with
      | none => .error .goPanic
      | some b =>
        if b == 62 then .ok ([], [], -1)
        else
          match NextWord buf with
          | .error e => .error e
          | .ok (attrName, endAttrNameIdx) =>
            let equalIdx := nextTokenStartIndex (buf.drop (endAttrNameIdx - 1)) 61
            let idx2 : Int := (endAttrNameIdx : Int) + equalIdx
            if idx2 < 0 then .error .goPanic
            else
              match NextQuotedWord (buf.drop idx2.toNat) with
              | .error e => .error e
              | .ok (attrValue, endAttrValueIdx) =>
                .ok (attrName, attrValue,
                     (endAttrNameIdx : Int) + endAttrValueIdx + equalIdx + 1)

/-- The namespace-stripping step of `StartToken.GetAttribute`: drop everything
up to and including the FIRST `:` (Go `strings.IndexByte(attrName, ':')`). -/
def stripColonPrefix (attrName : List Nat) : List Nat :=
  let colIdx := indexByte attrName 58
  if colIdx ≠ -1 then attrName.drop (colIdx.toNat + 1) else attrName

/-- The `for` loop of `StartToken.GetAttribute`: `nextAttrIdx` is the region
cursor, `skipIdx` the skip offset of the previous iteration (as in the Go
loop-termination check `len(s.attrBuf)-skipIdx <= MinAttrLen`). The Go loop
does not terminate when an iteration yields `skipIdx = -1` without a match;
fuel exhaustion models that with `Err.fuelOut`. -/
def getAttributeLoop (attrBuf name : List Nat) : Nat → Int → Nat → Except Err (List Nat)
  | _, _, 0 => .error .fuelOut
  | nextAttrIdx, skipIdx, fuel + 1 =>
    if (attrBuf.length : Int) - skipIdx ≤ 4 then .error .noSuchAttribute
    else
      match decodeTagAttribute (attrBuf.drop nextAttrIdx) with
      | .error e => .error e
      | .ok (attrName, value, skip) =>
        let stripped := stripColonPrefix attrName
        if stripped == name then .ok value
        else
          let nextAttrIdx2 := if skip ≠ -1 then nextAttrIdx + skip.toNat else nextAttrIdx
          getAttributeLoop attrBuf name nextAttrIdx2 skip fuel

/-- `StartToken.GetAttribute` from the attribute source part: first attribute
whose (namespace-stripped) name equals `name`. The method only reads
`s.attrBuf` (local cursor variables), so it is a pure function of the token. -/
def StartToken.GetAttribute (s : StartToken) (name : List Nat) : Except Err (List Nat) :=
  getAttributeLoop s.attrBuf name 0 0 (s.attrBuf.length + 1)

/-- The iteration trace of `GetAttribute`'s loop: the sequence of
`(name, value)` pairs the loop parses and compares, with the same exit
condition, the same `decodeTagAttribute` call at the same cursor, and the
same cursor/skip updates as `getAttributeLoop` — only the name comparison is
replaced by recording the pair. Stating the lookup's first-match property is
its sole purpose. (The trace is as quirky as the loop: after a `skip = -1`
parse it revisits the empty pair until the fuel runs out, exactly as the Go
loop re-reads the position forever when no match arrives.) -/
def parsedAttrs (attrBuf : List Nat) : Nat → Int → Nat → List (List Nat × List Nat)
  | _, _, 0 => []
  | nextAttrIdx, skipIdx, fuel + 1 =>
    if (attrBuf.length : Int) - skipIdx ≤ 4 then []
    else
      match decodeTagAttribute (attrBuf.drop nextAttrIdx) with
      | .error _ => []
      | .ok (attrName, value, skip) =>
        (attrName, value) ::
          parsedAttrs attrBuf
            (if skip ≠ -1 then nextAttrIdx + skip.toNat else nextAttrIdx) skip fuel

/-- An XML whitespace byte is ASCII. -/
theorem space_lt_128 (b : Nat) (h : IsHTMLSpaceChar b = true) : b < 128 := by
  unfold IsHTMLSpaceChar at h
  simp only [Bool.or_eq_true, beq_iff_eq] at h
  rcases h with h | h | h | h <;> omega

/-- `indexByte` is `-1` or a valid index. -/
theorem indexByte_spec (l : List Nat) (b : Nat) :
    indexByte l b = -1 ∨ (0 ≤ indexByte l b ∧ (indexByte l b).toNat < l.length) := by
  induction l with
  | nil => exact Or.inl rfl
  | cons x xs ih =>
    by_cases hx : (x == b) = true
    · right
      simp [indexByte, hx]
    · rcases ih with h | ⟨h1, h2⟩
      · left
        simp [indexByte, hx, h]
      · right
        have hne : ¬ ((indexByte xs b == -1) = true) := by
          simp only [beq_iff_eq]
          omega
        simp only [indexByte, hx, if_false, Bool.false_eq_true, if_neg hne, List.length_cons]
        omega

/-- `indexByte` is at least `-1`. -/
theorem indexByte_ge (l : List Nat) (b : Nat) : -1 ≤ indexByte l b := by
  rcases indexByte_spec l b with h | ⟨h1, _⟩ <;> omega

/-- `bytesIndex` is `-1` or an index at which the whole pattern fits. -/
theorem bytesIndex_spec (l pat : List Nat) :
    bytesIndex l pat = -1 ∨
      (0 ≤ bytesIndex l pat ∧ (bytesIndex l pat).toNat + pat.length ≤ l.length) := by
  induction l with
  | nil =>
    by_cases hp : pat.isPrefixOf ([] : List Nat) = true
    · right
      have hle : pat.length ≤ ([] : List Nat).length :=
        (List.isPrefixOf_iff_prefix.mp hp).length_le
      simp only [bytesIndex, hp, if_true]
      simpa using hle
    · left
      simp [bytesIndex, hp]
  | cons x xs ih =>
    by_cases hp : pat.isPrefixOf (x :: xs) = true
    · right
      have hle : pat.length ≤ (x :: xs).length :=
        (List.isPrefixOf_iff_prefix.mp hp).length_le
      simp only [bytesIndex, hp, if_true]
      simpa using hle
    · rcases ih with h | ⟨h1, h2⟩
      · left
        simp [bytesIndex, hp, h]
      · right
        have hne : ¬ ((bytesIndex xs pat == -1) = true) := by
          simp only [beq_iff_eq]
          omega
        simp only [bytesIndex, hp, if_false, Bool.false_eq_true, if_neg hne, List.length_cons]
        omega

/-- `nextTokenStartIndex` never exceeds the last index of the buffer. -/
theorem nextTokenStartIndex_le (buf : List Nat) (c : Nat) :
    nextTokenStartIndex buf c ≤ (buf.length : Int) - 1 := by
  unfold nextTokenStartIndex
  split
  · omega
  · rename_i hlen
    have ht : buf.tail.length = buf.length - 1 := List.length_tail buf
    rcases indexByte_spec buf.tail c with h | ⟨h1, h2⟩
    · rw [h]
      omega
    · omega

/-- `nextTokenStartIndex` is at least `-1`. -/
theorem nextTokenStartIndex_ge (buf : List Nat) (c : Nat) :
    -1 ≤ nextTokenStartIndex buf c := by
  unfold nextTokenStartIndex
  split
  · omega
  · have := indexByte_ge buf.tail c
    omega

/-- The non-space scan never reaches the buffer length. -/
theorem nnsLoop_lt (buf : List Nat) : ∀ fuel idx, nnsLoop buf idx fuel < (buf.length : Int) := by
  intro fuel
  induction fuel with
  | zero =>
    intro idx
    simp only [nnsLoop]
    omega
  | succ f ih =>
    intro idx
    simp only [nnsLoop]
    split
    · split
      · rename_i hlt _
        omega
      · exact ih _
    · omega

/-- The non-space scan result is at least `-1`. -/
theorem nnsLoop_ge (buf : List Nat) : ∀ fuel idx, -1 ≤ nnsLoop buf idx fuel := by
  intro fuel
  induction fuel with
  | zero =>
    intro idx
    simp only [nnsLoop]
    omega
  | succ f ih =>
    intro idx
    simp only [nnsLoop]
    split
    · split
      · omega
      · exact ih _
    · omega

/-- On an all-whitespace buffer the non-space scan returns `-1`. -/
theorem nnsLoop_allspace (buf : List Nat) (hws : ∀ b ∈ buf, IsHTMLSpaceChar b = true) :
    ∀ fuel idx, nnsLoop buf idx fuel = -1 := by
  intro fuel
  induction fuel with
  | zero => intro idx; rfl
  | succ f ih =>
    intro idx
    simp only [nnsLoop]
    split
    · rename_i hlt
      obtain ⟨b, t, hd⟩ : ∃ b t, buf.drop idx = b :: t := by
        cases hcd : buf.drop idx with
        | nil =>
          exfalso
          have := congrArg List.length hcd
          simp only [List.length_drop, List.length_nil] at this
          omega
        | cons b t => exact ⟨b, t, rfl⟩
      have hbmem : b ∈ buf := List.mem_of_mem_drop (by rw [hd]; exact List.mem_cons_self b t)
      have hbs : IsHTMLSpaceChar b = true := hws b hbmem
      have hblt : b < 0x80 := space_lt_128 b hbs
      have hdec : utf8DecodeRune (buf.drop idx) = (b, 1) := by
        rw [hd]
        simp [utf8DecodeRune, hblt]
      rw [hdec]
      simp only [hbs, Bool.not_true, Bool.false_eq_true, if_false]
      exact ih (idx + 1)
    · rfl

/-- A buffer starting with a non-space ASCII byte has non-space index `0`. -/
theorem nns_cons (b : Nat) (rest : List Nat) (hb : b < 128) (hs : IsHTMLSpaceChar b = false) :
    NextNonSpaceIndex (b :: rest) = 0 := by
  unfold NextNonSpaceIndex
  simp only [List.length_cons]
  simp only [nnsLoop]
  have hdec : utf8DecodeRune ((b :: rest).drop 0) = (b, 1) := by
    simp only [List.drop_zero]
    simp [utf8DecodeRune, hb]
  rw [if_pos (by simp only [List.length_cons]; omega : 0 < (b :: rest).length), hdec]
  simp [hs]

/-- The name loop starting at a positive index stays positive. -/
theorem stwel_pos (t : List Nat) : ∀ i, 1 ≤ i → 1 ≤ scanTillWordEndLoop t i := by
  induction t with
  | nil => intro i _; simp [scanTillWordEndLoop]
  | cons b rest ih =>
    intro i hi
    simp only [scanTillWordEndLoop]
    split
    · exact hi
    · exact ih (i + 1) (by omega)

/-- The name loop over an all-name-byte list runs off the end and returns `1`. -/
theorem stwel_all (t : List Nat) : ∀ i, (∀ b ∈ t, isNameChar b = true) →
    scanTillWordEndLoop t i = 1 := by
  induction t with
  | nil => intro i _; rfl
  | cons b rest ih =>
    intro i h
    have hb : isNameChar b = true := h b (List.mem_cons_self b rest)
    simp only [scanTillWordEndLoop, hb, Bool.not_true, Bool.false_eq_true, if_false]
    exact ih (i + 1) (fun x hx => h x (List.mem_cons_of_mem b hx))

/-- The name loop stops exactly at the first non-name byte. -/
theorem stwel_first (t : List Nat) : ∀ i m, m < t.length →
    isNameChar (t.getD m 0) = false →
    (∀ j, j < m → isNameChar (t.getD j 0) = true) →
    scanTillWordEndLoop t i = i + m := by
  induction t with
  | nil => intro i m hm _ _; simp at hm
  | cons b rest ih =>
    intro i m hm hbad hgood
    cases m with
    | zero =>
      simp only [List.getD_cons_zero] at hbad
      simp [scanTillWordEndLoop, hbad]
    | succ m' =>
      have hb : isNameChar b = true := by
        have := hgood 0 (Nat.succ_pos _)
        simpa using this
      simp only [scanTillWordEndLoop, hb, Bool.not_true, Bool.false_eq_true, if_false]
      have hr := ih (i + 1) m' (by simpa using hm) (by simpa using hbad)
        (fun j hj => by simpa using hgood (j + 1) (by omega))
      omega

/-- If some byte of the list is not a name byte the name loop stops inside
the list. -/
theorem stwel_exists (t : List Nat) : ∀ i, (∃ b ∈ t, isNameChar b = false) →
    ∃ m, m < t.length ∧ scanTillWordEndLoop t i = i + m := by
  induction t with
  | nil => intro i h; simp at h
  | cons b rest ih =>
    intro i h
    by_cases hb : isNameChar b = true
    · have h' : ∃ x ∈ rest, isNameChar x = false := by
        rcases h with ⟨x, hx, hxf⟩
        rcases List.mem_cons.mp hx with rfl | hxr
        · rw [hb] at hxf
          cases hxf
        · exact ⟨x, hxr, hxf⟩
      obtain ⟨m, hm, hr⟩ := ih (i + 1) h'
      refine ⟨m + 1, by simpa using Nat.succ_lt_succ hm, ?_⟩
      simp only [scanTillWordEndLoop, hb, Bool.not_true, Bool.false_eq_true, if_false]
      omega
    · refine ⟨0, by simp, ?_⟩
      have hb' : isNameChar b = false := by
        cases hv : isNameChar b
        · rfl
        · exact absurd hv hb
      simp [scanTillWordEndLoop, hb']

/-- `scanFullTag` frames within the buffer. -/
theorem scanFullTag_le (buf : List Nat) (n : Int) (h : scanFullTag buf = .ok n) :
    n ≤ (buf.length : Int) := by
  have hle := nextTokenStartIndex_le buf 62
  unfold scanFullTag at h
  cases h
  omega

/-- `scanCDATADeclaration` frames within the buffer. -/
theorem scanCDATA_le (buf : List Nat) (n : Int) (h : scanCDATADeclaration buf = .ok n) :
    n ≤ (buf.length : Int) := by
  unfold scanCDATADeclaration at h
  dsimp only [] at h
  split at h
  · cases h
  · rename_i hne
    cases h
    rcases bytesIndex_spec buf cdataSuf with hx | ⟨h1, h2⟩
    · simp [hx] at hne
    · have hc : cdataSuf.length = 3 := rfl
      omega

/-- `scanComment` frames within the buffer. -/
theorem scanComment_le (buf : List Nat) (n : Int) (h : scanComment buf = .ok n) :
    n ≤ (buf.length : Int) := by
  unfold scanComment at h
  dsimp only [] at h
  split at h
  · cases h
  · rename_i hne
    cases h
    rcases bytesIndex_spec buf commentSuf with hx | ⟨h1, h2⟩
    · simp [hx] at hne
    · have hc : commentSuf.length = 3 := rfl
      omega

/-- `scanDoctypeDeclaration` frames within the buffer. -/
theorem scanDoctype_le (buf : List Nat) (n : Int) (h : scanDoctypeDeclaration buf = .ok n) :
    n ≤ (buf.length : Int) := by
  unfold scanDoctypeDeclaration at h
  dsimp only [] at h
  split at h
  · cases h
    have := nextTokenStartIndex_le buf 62
    omega
  · rename_i hne
    cases h
    have h1 := nextTokenStartIndex_ge buf 93
    have h2 := nextTokenStartIndex_le buf 93
    have hcb : (0 : Int) ≤ nextTokenStartIndex buf 93 := by
      simp only [beq_iff_eq] at hne
      omega
    have h3 := nextTokenStartIndex_le (buf.drop (nextTokenStartIndex buf 93).toNat) 62
    have h4 : (buf.drop (nextTokenStartIndex buf 93).toNat).length =
        buf.length - (nextTokenStartIndex buf 93).toNat := List.length_drop _ _
    omega

/-- `scanFullCharData` frames within the buffer. -/
theorem scanCharData_le (buf : List Nat) (n : Int) (h : scanFullCharData buf = .ok n) :
    n ≤ (buf.length : Int) := by
  unfold scanFullCharData at h
  dsimp only [] at h
  split at h
  · cases h
    rename_i hz
    simp only [beq_iff_eq] at hz
    omega
  · split at h
    · cases h
      omega
    · rename_i hne
      cases h
      rcases indexByte_spec buf 60 with hx | ⟨h1, h2⟩
      · simp [hx] at hne
      · omega

/-- `scanSpecial` frames within the buffer. -/
theorem scanSpecial_le (buf : List Nat) (n : Int) (h : scanSpecial buf = .ok n) :
    n ≤ (buf.length : Int) := by
  unfold scanSpecial at h
  split at h
  · exact scanCDATA_le buf n h
  · split at h
    · exact scanDoctype_le buf n h
    · split at h
      · exact scanComment_le buf n h
      · split at h <;> cases h

/-- A buffer that starts with `<!` has the shape `60 :: 33 :: rest`. -/
theorem isSpecialTag_shape (buf : List Nat) (h : isSpecialTag buf = true) :
    ∃ rest, buf = 60 :: 33 :: rest := by
  unfold isSpecialTag at h
  match buf with
  | [] => simp [List.isPrefixOf] at h
  | [b0] => simp [List.isPrefixOf] at h
  | b0 :: b1 :: rest =>
    simp only [List.isPrefixOf, Bool.and_eq_true, beq_iff_eq] at h
    obtain ⟨h0, h1, -⟩ := h
    exact ⟨rest, by rw [h0, h1]⟩

/-- `scanSpecial` never panics on a `<!`-buffer: the unknown-declaration
message slice is safe because the first byte is not whitespace. -/
theorem scanSpecial_no_panic (buf : List Nat) (h : isSpecialTag buf = true) :
    scanSpecial buf ≠ .error .goPanic := by
  obtain ⟨rest, hb⟩ := isSpecialTag_shape buf h
  have hnns : NextNonSpaceIndex buf = 0 := by
    rw [hb]
    exact nns_cons 60 (33 :: rest) (by omega) (by decide)
  unfold scanSpecial
  split
  · unfold scanCDATADeclaration
    dsimp only []
    split <;> simp
  · split
    · unfold scanDoctypeDeclaration
      dsimp only []
      split <;> simp
    · split
      · unfold scanComment
        dsimp only []
        split <;> simp
      · rw [if_neg (by rw [hnns]; omega)]
        simp

/-- A framed token is a non-empty prefix of the buffer. -/
theorem fetch_some_spec (buf tb : List Nat) (h : FetchNextToken buf = .ok (some tb)) :
    0 < tb.length ∧ tb.length ≤ buf.length ∧ tb = buf.take tb.length := by
  unfold FetchNextToken at h
  dsimp only [] at h
  split at h
  · cases h
  · split at h
    · cases h
    · split at h
      · cases h
      · split at h
        · rename_i hpos hle
          simp only [Except.ok.injEq, Option.some.injEq] at h
          subst h
          refine ⟨?_, ?_, ?_⟩
          · rw [List.length_take]
            omega
          · rw [List.length_take]
            omega
          · rw [List.length_take, Nat.min_eq_left hle]
        · cases h

/-- `FetchNextToken` never panics: every scanner result is within bounds and
`scanSpecial` is panic-free on its dispatch domain. -/
theorem fetch_no_panic (buf : List Nat) : FetchNextToken buf ≠ .error .goPanic := by
  intro h
  unfold FetchNextToken at h
  dsimp only [] at h
  split at h
  · cases h
  · split at h
    · rename_i e heq
      cases h
      split at heq
      · rename_i hsp
        exact scanSpecial_no_panic buf hsp heq
      · split at heq
        · unfold scanFullTag at heq
          cases heq
        · unfold scanFullCharData at heq
          dsimp only [] at heq
          split at heq
          · cases heq
          · split at heq <;> cases heq
    · rename_i tagEnd heq
      split at h
      · cases h
      · split at h
        · cases h
        · rename_i hpos hgt
          have hle : tagEnd ≤ (buf.length : Int) := by
            split at heq
            · exact scanSpecial_le buf tagEnd heq
            · split at heq
              · exact scanFullTag_le buf tagEnd heq
              · exact scanCharData_le buf tagEnd heq
          omega

/-- `decodeSimpleTag` changes at most `lastTagName`. -/
theorem decodeSimpleTag_state (st : Parser) (b : List Nat) :
    (decodeSimpleTag st b).2.buf = st.buf ∧
    (decodeSimpleTag st b).2.currentPointer = st.currentPointer := by
  unfold decodeSimpleTag
  dsimp only []
  repeat' split
  all_goals exact ⟨rfl, rfl⟩

/-- When `decodeSimpleTag` returns a start tag, `lastTagName` afterwards is
either the tag's name (self-closing) or unchanged. -/
theorem decodeSimpleTag_start (st : Parser) (b : List Nat) (n : List Nat)
    (a : Option (List Nat)) :
    (decodeSimpleTag st b).1 = .ok (.startElement n a) →
    (decodeSimpleTag st b).2.lastTagName = n ∨
    (decodeSimpleTag st b).2.lastTagName = st.lastTagName := by
  unfold decodeSimpleTag
  dsimp only []
  repeat' split
  all_goals intro h
  all_goals dsimp only [] at h ⊢
  all_goals (cases h <;> first
    | exact Or.inl rfl
    | exact Or.inr rfl)

/-- `decodeToken` either leaves the state untouched or equals the
`decodeSimpleTag` call. -/
theorem decodeToken_shape (st : Parser) (b : List Nat) :
    (decodeToken st b).2 = st ∨ decodeToken st b = decodeSimpleTag st b := by
  unfold decodeToken decodeTokenRest
  repeat' split
  all_goals first
  | exact Or.inl rfl
  | exact Or.inr rfl

/-- `decodeToken` never changes the buffer or the cursor. -/
theorem decodeToken_state (st : Parser) (b : List Nat) :
    (decodeToken st b).2.buf = st.buf ∧
    (decodeToken st b).2.currentPointer = st.currentPointer := by
  rcases decodeToken_shape st b with h | h
  · rw [h]
    exact ⟨rfl, rfl⟩
  · rw [h]
    exact decodeSimpleTag_state st b

/-- `Next` never changes the buffer. -/
theorem next_buf (st : Parser) : (st.next).2.buf = st.buf := by
  unfold Parser.next
  split
  · rfl
  · split
    · rfl
    · split
      · rfl
      · exact (decodeToken_state _ _).1

/-- A start tag returned by `Next` leaves `lastTagName` equal to the tag name
or empty. -/
theorem next_start_last (st st' : Parser) (n : List Nat) (a : Option (List Nat))
    (h : st.next = (.ok (.startElement n a), st')) :
    st'.lastTagName = n ∨ st'.lastTagName = [] := by
  unfold Parser.next at h
  split at h
  · simp only [Prod.mk.injEq, Except.ok.injEq] at h
    cases h.1
  · rename_i hpend
    have hempty : st.lastTagName = [] := by
      by_contra hc
      exact hpend hc
    split at h
    · simp only [Prod.mk.injEq] at h
      cases h.1
    · split at h
      · simp only [Prod.mk.injEq] at h
        cases h.1
      · rename_i od heq
        have h2 : st' = (decodeToken
            { st with currentPointer := st.currentPointer + (od.getD []).length }
            (od.getD [])).2 := by
          rw [h]
        have h1 : (decodeToken
            { st with currentPointer := st.currentPointer + (od.getD []).length }
            (od.getD [])).1 = .ok (.startElement n a) := by
          rw [h]
        rcases decodeToken_shape
            { st with currentPointer := st.currentPointer + (od.getD []).length }
            (od.getD []) with hs | hs
        · right
          rw [h2, hs]
          exact hempty
        · rw [hs] at h1 h2
          rcases decodeSimpleTag_start _ _ n a h1 with hx | hx
          · left
            rw [h2]
            exact hx
          · right
            rw [h2, hx]
            exact hempty

/-- `Peek` is `Next` on the token side and the identity on the state. -/
theorem peek_eq (st : Parser) : st.peek = (st.next.1, st) := by
  have hb := next_buf st
  unfold Parser.peek
  dsimp only []
  rw [Prod.mk.injEq]
  refine ⟨rfl, ?_⟩
  obtain ⟨b, l, p⟩ := st
  simp only at hb
  rw [Parser.mk.injEq]
  exact ⟨hb, rfl, rfl⟩

/-- Claim C1: whenever `Next` decodes a self-closing start tag (it returns a
StartTag and leaves a pending self-close name), the immediately following
`Next` returns an EndTag whose name equals the StartTag's name and does not
advance the cursor: the new state differs only in the cleared pending name. -/
theorem C1_self_close_pairing (st : Parser) (name : List Nat)
    (a : Option (List Nat)) (st' : Parser)
    (h : st.next = (.ok (.startElement name a), st'))
    (hp : st'.lastTagName ≠ []) :
    st'.next = (.ok (.endElement name), { st' with lastTagName := [] }) := by
  have hn : st'.lastTagName = name :=
    (next_start_last st st' name a h).resolve_right hp
  unfold Parser.next
  rw [if_pos hp, hn]

/-- Witness for C1 at the concrete buffer `<br/>`: the first `Next` returns
StartTag "br" leaving pending name "br", and the second returns EndTag "br"
with the cursor still at 5. -/
theorem C1_self_close_pairing_witness :
    (⟨strBytes "<br/>", strBytes "br", 5⟩ : Parser).next =
      (.ok (.endElement (strBytes "br")),
       { (⟨strBytes "<br/>", strBytes "br", 5⟩ : Parser) with lastTagName := [] }) :=
  C1_self_close_pairing (NewParser (strBytes "<br/>")) (strBytes "br") none
    ⟨strBytes "<br/>", strBytes "br", 5⟩ rfl (by decide)

/-- Claim C2 (code bug): on character data whose last byte is CR the source
panics instead of normalizing. `cleanEOLChars` reads `buf[crIdx+1]` guarded
only by the always-true `len(buf) > crIdx`, so `Next` on the buffer `a\r`
hits an index out of range instead of returning `a\n`; on inputs whose CR
bytes are not final the normalization behaves as the claim says. -/
theorem C2_trailing_cr_panics :
    (NewParser (strBytes "a\r")).next = (.error .goPanic, ⟨strBytes "a\r", [], 2⟩) ∧
    cleanEOLChars (strBytes "a\r") = .error .goPanic ∧
    cleanEOLChars (strBytes "line1\r\nline2\rline3") =
      .ok (strBytes "line1\nline2\nline3") :=
  ⟨rfl, rfl, rfl⟩

/-- Claim C3 is false as stated: `Next` on `<![CDATA[x` returns a framing
error (no CDATA terminator) without advancing the cursor, yet the error is
not UnexpectedEOF and the cursor is not at the end of the buffer. -/
theorem C3_counterexample :
    ¬ (∀ (st st' : Parser) (e : Err), st.next = (.error e, st') → e ≠ .eof →
        st.currentPointer + 1 ≤ st'.currentPointer ∨
        (e = .unexpectedEOF ∧ st.currentPointer = st.buf.length)) := by
  intro hall
  have h := hall (NewParser (strBytes "<![CDATA[x")) (NewParser (strBytes "<![CDATA[x"))
    .noCDATASuffix rfl (by decide)
  rcases h with h | ⟨h1, h2⟩
  · exact absurd h (by decide)
  · cases h1

/-- Claim C3 amended: when `Next` returns an error other than EOF, either the
framer succeeded and the cursor advanced by exactly the frame length (at
least one byte, the decode-error case), or the cursor is unchanged (framing
errors, and the UnexpectedEOF produced by a zero-length frame, which can
occur with the cursor strictly inside the buffer). -/
theorem C3_amended_progress (st : Parser) (e : Err) (st' : Parser)
    (h : st.next = (.error e, st')) (he : e ≠ .eof) :
    (∃ tb, FetchNextToken (st.buf.drop st.currentPointer) = .ok (some tb) ∧
        1 ≤ tb.length ∧ st'.currentPointer = st.currentPointer + tb.length) ∨
    st'.currentPointer = st.currentPointer := by
  unfold Parser.next at h
  split at h
  · simp only [Prod.mk.injEq] at h
    cases h.1
  · split at h
    · simp only [Prod.mk.injEq] at h
      obtain ⟨h1, h2⟩ := h
      cases h1
      exact absurd rfl he
    · split at h
      · simp only [Prod.mk.injEq] at h
        right
        rw [← h.2]
      · rename_i od heq
        have h2 : st' = (decodeToken
            { st with currentPointer := st.currentPointer + (od.getD []).length }
            (od.getD [])).2 := by
          rw [h]
        have hptr : st'.currentPointer = st.currentPointer + (od.getD []).length := by
          rw [h2]
          exact (decodeToken_state _ _).2
        rcases od with _ | tb
        · right
          simpa using hptr
        · left
          have hs := fetch_some_spec _ tb heq
          exact ⟨tb, heq, hs.1, by simpa using hptr⟩

/-- Witness for the amended C3 at `</>`: the frame has length 3, the decoder
rejects the closing tag, and the cursor advances from 0 to 3. -/
theorem C3_amended_progress_witness :
    (∃ tb, FetchNextToken ((strBytes "</>").drop 0) = .ok (some tb) ∧
        1 ≤ tb.length ∧ (3 : Nat) = 0 + tb.length) ∨ (3 : Nat) = 0 :=
  C3_amended_progress (NewParser (strBytes "</>")) .invalidClosingElement
    ⟨strBytes "</>", [], 3⟩ rfl (by decide)

/-- Claim C4: `Peek` restores the whole parser state (cursor and pending
self-close included), so any finite sequence of `Peek` calls leaves the
state unchanged, each returns the token `Next` would return, and a
subsequent `Next` behaves exactly as it would have without the peeks. -/
theorem C4_peek_idempotent (st : Parser) (k : Nat) :
    Nat.iterate (fun s : Parser => s.peek.2) k st = st ∧
    st.peek.1 = st.next.1 ∧
    (st.peek.2).next = st.next := by
  have hp := peek_eq st
  have h2 : st.peek.2 = st := by rw [hp]
  refine ⟨?_, by rw [hp], by rw [h2]⟩
  induction k with
  | zero => rfl
  | succ m ih =>
    show (fun s : Parser => s.peek.2)^[m + 1] st = st
    rw [Function.iterate_succ_apply]
    rw [h2]
    exact ih

/-- Claim C5 (code bug): the doctype framer excludes the closing `>`. On
`<!DOCTYPE html>` (length 15) `scanDoctypeDeclaration` returns 14 — the
index of the `>`, not the length through it — because `nextTokenStartIndex`
returns the index of the byte rather than index+1 (its doc comment and
`scanFullTag`, which adds the missing 1, expect the latter). The decoder
then strips the frame's last byte as if it were `>` and emits the truncated
Directive `DOCTYPE htm`, leaving the real `>` unconsumed. -/
theorem C5_doctype_frame_excludes_gt :
    scanDoctypeDeclaration (strBytes "<!DOCTYPE html>") = .ok 14 ∧
    (strBytes "<!DOCTYPE html>").length = 15 ∧
    FetchNextToken (strBytes "<!DOCTYPE html>") = .ok (some (strBytes "<!DOCTYPE html")) ∧
    (NewParser (strBytes "<!DOCTYPE html>")).next =
      (.ok (.directive (strBytes "DOCTYPE htm")), ⟨strBytes "<!DOCTYPE html>", [], 14⟩) :=
  ⟨rfl, rfl, rfl, rfl⟩

/-- Claim C6 is false as stated: on `ab`, whose bytes are all name-continue
bytes, `scanTillWordEnd` returns 1, not the length 2. -/
theorem C6_counterexample :
    ((strBytes "ab").all (fun b => isNameChar b) = true) ∧
    isNameStartChar ((strBytes "ab").headD 0) = true ∧
    scanTillWordEnd (strBytes "ab") ≠ (strBytes "ab").length := by
  decide

/-- Claim C6 amended: `scanTillWordEnd` returns 0 on an empty slice or when
the first byte is not name-start; otherwise it returns the index of the
first byte that is not a name-continue byte when one exists, and 1 — not
`|s|` — when every byte from index 1 on is a name-continue byte. -/
theorem C6_amended_scan_name (s : List Nat) :
    (s.length = 0 → scanTillWordEnd s = 0) ∧
    (0 < s.length → isNameStartChar (s.headD 0) = false → scanTillWordEnd s = 0) ∧
    (∀ i, isNameStartChar (s.headD 0) = true → 1 ≤ i → i < s.length →
        isNameChar (s.getD i 0) = false →
        (∀ j, 1 ≤ j → j < i → isNameChar (s.getD j 0) = true) →
        scanTillWordEnd s = i) ∧
    (0 < s.length → isNameStartChar (s.headD 0) = true →
        (∀ j, 1 ≤ j → j < s.length → isNameChar (s.getD j 0) = true) →
        scanTillWordEnd s = 1) := by
  rcases s with _ | ⟨b0, rest⟩
  · refine ⟨fun _ => rfl, ?_, ?_, ?_⟩
    · intro h
      simp at h
    · intro i _ h1 h2
      simp at h2
    · intro h
      simp at h
  · refine ⟨?_, ?_, ?_, ?_⟩
    · intro h
      simp at h
    · intro _ hns
      simp only [List.headD_cons] at hns
      simp [scanTillWordEnd, hns]
    · intro i hns h1 hlt hbad hgood
      simp only [List.headD_cons] at hns
      simp only [scanTillWordEnd, hns, Bool.not_true, Bool.false_eq_true, if_false]
      obtain ⟨m, rfl⟩ : ∃ m, i = m + 1 := ⟨i - 1, by omega⟩
      have hr := stwel_first rest 1 m
        (by simpa using hlt)
        (by simpa using hbad)
        (fun j hj => by simpa using hgood (j + 1) (by omega) (by omega))
      omega
    · intro _ hns hall
      simp only [List.headD_cons] at hns
      simp only [scanTillWordEnd, hns, Bool.not_true, Bool.false_eq_true, if_false]
      refine stwel_all rest 1 ?_
      intro b hb
      obtain ⟨j, hj, hbj⟩ := List.mem_iff_getElem.mp hb
      have := hall (j + 1) (by omega) (by simpa using hj)
      rw [List.getD_cons_succ] at this
      rw [← hbj]
      rw [List.getD_eq_getElem rest 0 hj] at this
      exact this

/-- Witness for the amended C6: `a>` has its first non-name byte at index 1,
and `scanTillWordEnd` returns 1. -/
theorem C6_amended_scan_name_witness : scanTillWordEnd (strBytes "a>") = 1 :=
  (C6_amended_scan_name (strBytes "a>")).2.2.1 1 (by decide) (by omega) (by decide)
    (by decide) (fun j h1 h2 => absurd h2 (by omega))

/-- Claim C7 is false as stated: on the all-whitespace slice of one space,
`NextNonSpaceIndex` returns -1, not the length 1. -/
theorem C7_counterexample :
    (∀ b ∈ strBytes " ", IsHTMLSpaceChar b = true) ∧
    NextNonSpaceIndex (strBytes " ") ≠ ((strBytes " ").length : Int) := by
  decide

/-- Claim C7 amended: `NextNonSpaceIndex` never returns an index past the end
(its result is strictly below the length, and is either a valid index or
-1); on an all-whitespace or empty slice it returns -1 — not `|s|`. -/
theorem C7_amended_next_non_space (s : List Nat) :
    NextNonSpaceIndex s < (s.length : Int) ∧
    -1 ≤ NextNonSpaceIndex s ∧
    ((∀ b ∈ s, IsHTMLSpaceChar b = true) → NextNonSpaceIndex s = -1) := by
  refine ⟨nnsLoop_lt s _ _, nnsLoop_ge s _ _, fun h => nnsLoop_allspace s h _ _⟩

/-- Witness for the amended C7 at the all-whitespace slice of a tab and a
space. -/
theorem C7_amended_next_non_space_witness :
    NextNonSpaceIndex (strBytes "\t ") = -1 :=
  (C7_amended_next_non_space (strBytes "\t ")).2.2 (by decide)

/-- In-bounds `get?` in terms of `getD`. -/
theorem get?_eq_getD (l : List Nat) (n : Nat) (h : n < l.length) :
    l.get? n = some (l.getD n 0) := by
  rw [List.getD_eq_getElem l 0 h, List.get?_eq_getElem?]
  exact List.getElem?_eq_getElem h

/-- `getD` through `drop`. -/
theorem getD_drop (l : List Nat) (i j : Nat) (h : i + j < l.length) :
    (l.drop i).getD j 0 = l.getD (i + j) 0 := by
  rw [List.getD_eq_getElem _ 0 (by rw [List.length_drop]; omega),
      List.getD_eq_getElem _ 0 h]
  exact List.getElem_drop _

/-- In-bounds `getD` is a member. -/
theorem getD_mem (l : List Nat) (n : Nat) (h : n < l.length) : l.getD n 0 ∈ l := by
  rw [List.getD_eq_getElem l 0 h]
  exact List.getElem_mem h

/-- Claim C8: for every frame of length at least 3 that ends in `>` (the
shape the framer hands to the closing-tag decoder), decoding fails with
InvalidClosingElement exactly when the byte after `</` is `>` or is not a
name-start byte (equivalently, when the scanned name is empty); otherwise it
returns an EndTag whose non-empty name is the scanned word, tolerating
anything (whitespace included) between the name and the `>`. Concretely,
through the full `Next`: `</>` and `</ \t>` fail with InvalidClosingElement
and `</spaces   \t>` yields EndTag "spaces". -/
theorem C8_closing_tag (buf : List Nat)
    (hlen : 3 ≤ buf.length)
    (hend : buf.getD (buf.length - 1) 0 = 62) :
    (decodeClosingTag buf = .error .invalidClosingElement ↔
      (buf.getD 2 0 = 62 ∨ isNameStartChar (buf.getD 2 0) = false)) ∧
    ((buf.getD 2 0 ≠ 62 ∧ isNameStartChar (buf.getD 2 0) = true) →
      decodeClosingTag buf =
        .ok (.endElement ((buf.drop 2).take (scanTillWordEnd (buf.drop 2)))) ∧
      (buf.drop 2).take (scanTillWordEnd (buf.drop 2)) ≠ []) ∧
    (NewParser (strBytes "</>")).next.1 = .error .invalidClosingElement ∧
    (NewParser (strBytes "</ \t>")).next.1 = .error .invalidClosingElement ∧
    (NewParser (strBytes "</spaces   \t>")).next.1 =
      .ok (.endElement (strBytes "spaces")) := by
  have h2lt : 2 < buf.length := by omega
  have hget2 : buf.get? 2 = some (buf.getD 2 0) := get?_eq_getD buf 2 h2lt
  have hdl : (buf.drop 2).length = buf.length - 2 := List.length_drop 2 buf
  obtain ⟨b2, t, hdrop⟩ : ∃ b2 t, buf.drop 2 = b2 :: t := by
    cases hd : buf.drop 2 with
    | nil =>
      exfalso
      rw [hd] at hdl
      simp at hdl
      omega
    | cons x y => exact ⟨x, y, rfl⟩
  have hb2 : b2 = buf.getD 2 0 := by
    have hx := getD_drop buf 2 0 (by omega)
    rw [hdrop, List.getD_cons_zero] at hx
    exact hx
  by_cases hc : buf.getD 2 0 = 62 ∨ isNameStartChar (buf.getD 2 0) = false
  · have herr : decodeClosingTag buf = .error .invalidClosingElement := by
      by_cases hsmall : buf.length < 4
      · unfold decodeClosingTag
        rw [if_pos (by
          rw [Bool.or_eq_true]
          exact Or.inl (by simpa using hsmall))]
      · by_cases h62 : buf.getD 2 0 = 62
        · unfold decodeClosingTag
          rw [if_pos (by
            rw [Bool.or_eq_true]
            refine Or.inr ?_
            rw [hget2, h62]
            decide)]
        · have hnsf : isNameStartChar (buf.getD 2 0) = false := by
            rcases hc with h | h
            · exact absurd h h62
            · exact h
          have hstw0 : scanTillWordEnd (buf.drop 2) = 0 := by
            rw [hdrop]
            simp only [scanTillWordEnd, hb2, hnsf]
            rfl
          unfold decodeClosingTag
          rw [if_neg (by
            rw [hget2]
            simp only [Bool.or_eq_true, decide_eq_true_eq, beq_iff_eq, Option.some.injEq]
            push_neg
            exact ⟨by omega, h62⟩)]
          dsimp only []
          rw [if_pos (by simp [hstw0])]
    refine ⟨⟨fun _ => hc, fun _ => herr⟩, ?_, rfl, rfl, rfl⟩
    rintro ⟨hne, hns⟩
    rcases hc with h | h
    · exact absurd h hne
    · rw [hns] at h
      cases h
  · push_neg at hc
    obtain ⟨hne, hns'⟩ := hc
    have hns : isNameStartChar (buf.getD 2 0) = true := by
      cases hv : isNameStartChar (buf.getD 2 0)
      · exact absurd hv hns'
      · rfl
    have hlen4 : 4 ≤ buf.length := by
      by_contra hx
      have h3 : buf.length - 1 = 2 := by omega
      rw [h3] at hend
      exact hne hend
    have htlen : t.length = buf.length - 3 := by
      have hx := congrArg List.length hdrop
      rw [hdl] at hx
      simp only [List.length_cons] at hx
      omega
    obtain ⟨u, hu⟩ : ∃ u, t.length = u + 1 := ⟨t.length - 1, by omega⟩
    have hlastt : t.getD u 0 = 62 := by
      have hx := getD_drop buf 2 (u + 1) (by omega)
      rw [hdrop, List.getD_cons_succ] at hx
      have hidx : 2 + (u + 1) = buf.length - 1 := by omega
      rw [hidx] at hx
      rw [hx, hend]
    have hbad : ∃ b ∈ t, isNameChar b = false := by
      refine ⟨t.getD u 0, getD_mem t u (by omega), ?_⟩
      rw [hlastt]
      decide
    obtain ⟨m, hm, hloop⟩ := stwel_exists t 1 hbad
    have hnsb2 : isNameStartChar b2 = true := by
      rw [hb2]
      exact hns
    have hstw : scanTillWordEnd (buf.drop 2) = 1 + m := by
      rw [hdrop]
      simp only [scanTillWordEnd, hnsb2, Bool.not_true, Bool.false_eq_true, if_false]
      exact hloop
    have hltlen : scanTillWordEnd (buf.drop 2) < (buf.drop 2).length := by
      rw [hstw, hdrop]
      simp only [List.length_cons]
      omega
    have hok : decodeClosingTag buf =
        .ok (.endElement ((buf.drop 2).take (scanTillWordEnd (buf.drop 2)))) := by
      unfold decodeClosingTag
      rw [if_neg (by
        rw [hget2]
        simp only [Bool.or_eq_true, decide_eq_true_eq, beq_iff_eq, Option.some.injEq]
        push_neg
        exact ⟨by omega, hne⟩)]
      dsimp only []
      rw [if_neg (by simp [hstw])]
      rw [get?_eq_getD _ _ hltlen]
    have hne2 : (buf.drop 2).take (scanTillWordEnd (buf.drop 2)) ≠ [] := by
      intro hx
      have hlx := congrArg List.length hx
      rw [List.length_take, hstw] at hlx
      simp only [List.length_nil] at hlx
      omega
    refine ⟨⟨fun herr => ?_, fun hrhs => ?_⟩, fun _ => ⟨hok, hne2⟩, rfl, rfl, rfl⟩
    · rw [hok] at herr
      cases herr
    · rcases hrhs with h | h
      · exact absurd h hne
      · rw [h] at hns
        cases hns

/-- Witness for C8 at the frame `</a>`. -/
theorem C8_closing_tag_witness :
    (decodeClosingTag (strBytes "</a>") = .error .invalidClosingElement ↔
      ((strBytes "</a>").getD 2 0 = 62 ∨
        isNameStartChar ((strBytes "</a>").getD 2 0) = false)) ∧
    (((strBytes "</a>").getD 2 0 ≠ 62 ∧
        isNameStartChar ((strBytes "</a>").getD 2 0) = true) →
      decodeClosingTag (strBytes "</a>") =
        .ok (.endElement (((strBytes "</a>").drop 2).take
          (scanTillWordEnd ((strBytes "</a>").drop 2)))) ∧
      ((strBytes "</a>").drop 2).take (scanTillWordEnd ((strBytes "</a>").drop 2)) ≠ []) ∧
    (NewParser (strBytes "</>")).next.1 = .error .invalidClosingElement ∧
    (NewParser (strBytes "</ \t>")).next.1 = .error .invalidClosingElement ∧
    (NewParser (strBytes "</spaces   \t>")).next.1 =
      .ok (.endElement (strBytes "spaces")) :=
  C8_closing_tag (strBytes "</a>") (by decide) (by decide)

/-- Claim C9 is false as stated: on the attribute region `a:b:c="v">` the
lookup strips up to the FIRST colon, so `GetAttribute "c"` (the bytes after
the last colon, which the claim says is used) fails with NoSuchAttribute,
while `GetAttribute "b:c"` (the bytes after the first colon) returns "v". -/
theorem C9_counterexample :
    StartToken.GetAttribute ⟨strBytes "t", strBytes "a:b:c=\"v\">"⟩ (strBytes "c") =
      .error .noSuchAttribute ∧
    StartToken.GetAttribute ⟨strBytes "t", strBytes "a:b:c=\"v\">"⟩ (strBytes "b:c") =
      .ok (strBytes "v") :=
  ⟨rfl, rfl⟩

/-- Whatever loop state the lookup is in, if the remaining iteration trace
contains a pair preceded only by non-matching names whose own stripped name
matches, the loop returns that pair's value. -/
theorem getAttributeLoop_first_match (attrBuf name : List Nat) :
    ∀ (fuel idx : Nat) (skipIdx : Int) (pre post : List (List Nat × List Nat))
      (n v : List Nat),
      parsedAttrs attrBuf idx skipIdx fuel = pre ++ (n, v) :: post →
      (∀ p ∈ pre, stripColonPrefix p.1 ≠ name) →
      stripColonPrefix n = name →
      getAttributeLoop attrBuf name idx skipIdx fuel = .ok v := by
  intro fuel
  induction fuel with
  | zero =>
    intro idx skipIdx pre post n v hseq
    simp [parsedAttrs] at hseq
  | succ f ih =>
    intro idx skipIdx pre post n v hseq hpre hmatch
    simp only [parsedAttrs] at hseq
    simp only [getAttributeLoop]
    split at hseq
    · rename_i hcond
      exact absurd hseq (by simp)
    · rename_i hcond
      rw [if_neg hcond]
      split at hseq
      · exact absurd hseq (by simp)
      · rename_i attrName value skip heq
        cases pre with
        | nil =>
          simp only [List.nil_append, List.cons.injEq, Prod.mk.injEq] at hseq
          obtain ⟨⟨h1, h2⟩, -⟩ := hseq
          rw [if_pos (by rw [h1, hmatch]; exact beq_self_eq_true name)]
          rw [h2]
        | cons p0 pre2 =>
          simp only [List.cons_append, List.cons.injEq] at hseq
          obtain ⟨hp0, htail⟩ := hseq
          have hne : stripColonPrefix attrName ≠ name := by
            have hx := hpre p0 (List.mem_cons_self p0 pre2)
            rw [← hp0] at hx
            exact hx
          rw [if_neg (by simp only [beq_iff_eq]; exact hne)]
          exact ih _ _ pre2 post n v htail
            (fun p hp => hpre p (List.mem_cons_of_mem p0 hp)) hmatch

/-- Claim C9 amended: over the whole iteration, `GetAttribute` compares each
parsed attribute name against the lookup name using the bytes after the
FIRST `:` when the name contains one (for `a:b:c` the comparison uses `b:c`,
not `c`) and returns the value of the first matching attribute: whenever the
trace of (name, value) pairs the loop visits contains a pair that matches
after stripping and is preceded only by pairs that do not, the lookup
returns that pair's value. Being a pure read of the token's attribute
region — modelled as a function that returns no new token state — it does
not disturb the `NextAttribute` iteration state. -/
theorem C9_amended_first_colon (s : StartToken) (name : List Nat)
    (pre post : List (List Nat × List Nat)) (n v : List Nat)
    (hseq : parsedAttrs s.attrBuf 0 0 (s.attrBuf.length + 1) = pre ++ (n, v) :: post)
    (hpre : ∀ p ∈ pre, stripColonPrefix p.1 ≠ name)
    (hmatch : stripColonPrefix n = name) :
    StartToken.GetAttribute s name = .ok v :=
  getAttributeLoop_first_match s.attrBuf name (s.attrBuf.length + 1) 0 0 pre post
    n v hseq hpre hmatch

/-- Witness for the amended C9 at a lookup that matches the SECOND attribute:
in the region of `<t x:y:z="q" c="7">` the trace starts with `x:y:z` (which
strips to `y:z` and does not match) followed by `c`, and the lookup of `c`
returns "7". -/
theorem C9_amended_first_colon_witness :
    StartToken.GetAttribute ⟨strBytes "t", strBytes "x:y:z=\"q\" c=\"7\">"⟩
      (strBytes "c") = .ok (strBytes "7") :=
  C9_amended_first_colon ⟨strBytes "t", strBytes "x:y:z=\"q\" c=\"7\">"⟩
    (strBytes "c")
    [(strBytes "x:y:z", strBytes "q")]
    (List.replicate 15 (([] : List Nat), ([] : List Nat)))
    (strBytes "c") (strBytes "7")
    (by decide) (by decide) rfl

/-- Claim C10: the framer never panics and returns an error, no frame, or a
non-empty prefix `buf.take L` with `0 < L ≤ |buf|`; consequently the cursor,
which advances only by the framed length, never exceeds the buffer length —
after a single `Next` and after any number of iterated `Next` steps. -/
theorem C10_frame_prefix_cursor_bounded :
    (∀ buf : List Nat, FetchNextToken buf ≠ .error .goPanic) ∧
    (∀ buf tb : List Nat, FetchNextToken buf = .ok (some tb) →
        0 < tb.length ∧ tb.length ≤ buf.length ∧ tb = buf.take tb.length) ∧
    (∀ st : Parser, st.currentPointer ≤ st.buf.length →
        st.next.2.currentPointer ≤ st.next.2.buf.length) ∧
    (∀ (st : Parser) (k : Nat), st.currentPointer ≤ st.buf.length →
        ((fun s : Parser => s.next.2)^[k] st).currentPointer ≤
        ((fun s : Parser => s.next.2)^[k] st).buf.length) := by
  have hstep : ∀ st : Parser, st.currentPointer ≤ st.buf.length →
      st.next.2.currentPointer ≤ st.next.2.buf.length := by
    intro st hst
    have hbuf : st.next.2.buf = st.buf := next_buf st
    rw [hbuf]
    unfold Parser.next
    split
    · exact hst
    · split
      · exact hst
      · split
        · exact hst
        · rename_i od heq
          dsimp only []
          rw [(decodeToken_state
            { st with currentPointer := st.currentPointer + (od.getD []).length }
            (od.getD [])).2]
          rcases od with _ | tb
          · simpa using hst
          · have hs := (fetch_some_spec _ tb heq).2.1
            rw [List.length_drop] at hs
            simp only [Option.getD_some]
            omega
  refine ⟨fetch_no_panic, fun buf tb h => fetch_some_spec buf tb h, hstep, ?_⟩
  intro st k
  induction k generalizing st with
  | zero =>
    intro h
    simpa using h
  | succ m ih =>
    intro h
    rw [Function.iterate_succ_apply]
    exact ih _ (hstep st h)

/-- Witness for C10: two `Next` steps over `<a>x` keep the cursor within the
4-byte buffer. -/
theorem C10_frame_prefix_cursor_bounded_witness :
    ((fun s : Parser => s.next.2)^[2] (NewParser (strBytes "<a>x"))).currentPointer ≤
    ((fun s : Parser => s.next.2)^[2] (NewParser (strBytes "<a>x"))).buf.length :=
  C10_frame_prefix_cursor_bounded.2.2.2 (NewParser (strBytes "<a>x")) 2 (by decide)

end Fastxml
